import Mathlib

/-!
Verification development for the merkle-tree repository (merkle.hpp v1.1,
bytes_concat.hpp, merkle_utils.hpp).

Modelling conventions.  Bytes are `Nat` values (one byte each), byte buffers
are `List Nat`.  The hash function and its value type are template parameters
in the source (`Hasher`, `Hash = Hasher::value_type`, `Concatenator`); they
appear here as an arbitrary type `α` together with `hash : List Nat → α`
(the hash oracle) and `hb : α → List Nat` (the byte rendering of a hash
value, i.e. what `UnifiedConcatenator` appends when a hash value is one of
its arguments).  Machine integers are `Nat` with explicit truncation where
the source truncates.  Buffers are read with `List.getD`; every access the
theorems rely on is shown to be in bounds.
-/

namespace merkle

/-- Model of `bconcat::UnifiedConcatenator::concat`: the order-preserving
concatenation of the byte renderings of its arguments into one contiguous
buffer (a left fold of append over the argument list). -/
def concatU (args : List (List Nat)) : List Nat := args.foldl (fun a b => a ++ b) []

/-- Byte rendering of a C++ `int`, little endian: `UnifiedConcatenator`
`memcpy`s the 4 bytes of the salt constant into the buffer. -/
def intBytes (x : Nat) : List Nat :=
  [x % 256, x / 256 % 256, x / 256 ^ 2 % 256, x / 256 ^ 3 % 256]

/-- The constant `leaf_salt = 0x00` from `TreeBase::leaf_hash`. -/
def leaf_salt : Nat := 0x00

/-- The constant `node_salt = 0x01` from `TreeBase::node_hash`. -/
def node_salt : Nat := 0x01

variable {α : Type}

/-- Model of `TreeBase::leaf_hash(args...) = hash(concat(leaf_salt, args...))`. -/
def leaf_hash (hash : List Nat → α) (data : List Nat) : α :=
  hash (concatU [intBytes leaf_salt, data])

/-- Model of `TreeBase::node_hash(args...) = hash(concat(node_salt, args...))`,
for an arbitrary byte payload (the variadic form: `build` for `LEAFS_N == 1`
applies it directly to the single input item). -/
def node_hashP (hash : List Nat → α) (payload : List Nat) : α :=
  hash (concatU [intBytes node_salt, payload])

/-- Model of `TreeBase::node_hash(left, right)` on two child hash values: the salt
followed by the two renderings in left-then-right order. -/
def node_hash (hash : List Nat → α) (hb : α → List Nat) (x y : α) : α :=
  node_hashP hash (concatU [hb x, hb y])

/-- Model of `merkle::round_to_even`: nearest even number at least the input. -/
def round_to_even (n : Nat) : Nat := n + n % 2

/-- Fuel-indexed rendering of the loop of `merkle::calc_tree_size`:
each iteration rounds the level size up to even, adds it to the total and
halves it; the total starts at 1 (the root slot).  The fuel only bounds the
iteration count (the size strictly decreases, so fuel `n` is enough for
input `n`; see `ctsF_fuel`). -/
def ctsF : Nat → Nat → Nat
  | 0, _ => 1
  | f + 1, n => if n ≤ 1 then 1 else round_to_even n + ctsF f (round_to_even n / 2)

/-- Model of `merkle::calc_tree_size`. -/
def calc_tree_size (leafs_n : Nat) : Nat := ctsF leafs_n leafs_n

/-- Fuel-indexed population count (binary digit sum). -/
def popcountF : Nat → Nat → Nat
  | 0, _ => 0
  | f + 1, n => if n = 0 then 0 else popcountF f (n / 2) + n % 2

/-- Population count, the value of `__builtin_popcount` on arguments that
fit in its `unsigned int` parameter. -/
def popcount (n : Nat) : Nat := popcountF n n

/-- Fuel-indexed floor base-2 logarithm. -/
def log2F : Nat → Nat → Nat
  | 0, _ => 0
  | f + 1, n => if 2 ≤ n then log2F f (n / 2) + 1 else 0

/-- Model of `merkle::ilog2 x = x ? 63 - __builtin_clzll(x) : -1`: the floor base-2
logarithm for `1 ≤ x < 2^64`, and the wrapped `(T)-1` (here: `2^64 - 1`,
the value for `T = uint64_t`/`size_t`) for `x = 0`. -/
def ilog2 (x : Nat) : Nat := if x = 0 then 2 ^ 64 - 1 else log2F x x

/-- Model of `TreeBase::height(leafs_n)`.  Note that the source passes the 64-bit
`leafs_n` to `__builtin_popcount`, whose parameter is `unsigned int`, so the
population count is taken of the low 32 bits only — hence the `% 2 ^ 32`. -/
def height (leafs_n : Nat) : Nat :=
  if leafs_n = 0 then 0
  else ilog2 leafs_n + (if popcount (leafs_n % 2 ^ 32) = 1 then 0 else 1)

/-- One iteration of the loop in `FixedSizeTree::get_layer`: the body adds
the current level length to the offset, the update `(n >>= 1) += n & 1`
halves the length and rounds it up to even. -/
def layerStep (p : Nat × Nat) : Nat × Nat := (p.1 + p.2, round_to_even (p.2 / 2))

/-- The `get_layer` loop, iterated `k` times. -/
def layerWalk : Nat → Nat × Nat → Nat × Nat
  | 0, p => p
  | k + 1, p => layerWalk k (layerStep p)

/-- Model of `FixedSizeTree::get_layer(idx)` as (offset into the flattened storage,
length): the loop runs `height - idx` times starting from the evened leaf
count, and the returned length is `n - !idx` (for the root layer the evened 2 is
reported as 1). -/
def get_layer (leafs_n idx : Nat) : Nat × Nat :=
  let p := layerWalk (height leafs_n - idx) (0, round_to_even leafs_n)
  (p.1, p.2 - (if idx = 0 then 1 else 0))

variable [Inhabited α]

/-- The odd-level duplication step of `FixedSizeTree::build`
(`if (r & 1) m_data[r++] = m_data[r - 1]`): when the level length is odd the
last hash already stored for the level is copied once. -/
def evenize (lvl : List α) : List α :=
  if lvl.length % 2 = 1 then lvl ++ [lvl.getD (lvl.length - 1) default] else lvl

/-- The inner loop of `FixedSizeTree::build`: the parent level of an (even
length) level, `node_hash` of consecutive pairs in order. -/
def parents (nh : α → α → α) : List α → List α
  | x :: y :: t => nh x y :: parents nh t
  | _ => []

/-- Fuel-indexed rendering of the level loop of `FixedSizeTree::build`: the
storage from the current level upward.  While the current level has at least
two entries, its evened form is laid out, followed by the storage built from
its parent level; a one-entry level is the root.  Fuel `lvl.length` is
enough (the level length strictly decreases; see `storageF_fuel`). -/
def storageF (nh : α → α → α) : Nat → List α → List α
  | 0, lvl => lvl
  | f + 1, lvl =>
    if lvl.length ≤ 1 then lvl
    else evenize lvl ++ storageF nh f (parents nh (evenize lvl))

/-- The flattened storage grown from a leaf level. -/
def storage (nh : α → α → α) (lvl : List α) : List α := storageF nh lvl.length lvl

/-- Model of `FixedSizeTree::build` on a container with exactly `LEAFS_N = d.length`
items: the contents of `m_data` after the call.  For `LEAFS_N == 1` the
single slot is `node_hash(*ccont.begin())` (the node-salted hash of the raw
item); otherwise the leaf hashes are laid down and the levels are folded
bottom-up. -/
def build (hash : List Nat → α) (hb : α → List Nat) (d : List (List Nat)) : List α :=
  if d.length = 1 then [node_hashP hash (d.getD 0 [])]
  else storage (node_hash hash hb) (d.map (leaf_hash hash))

/-- Model of `FixedSizeTree::root() = m_data[SIZE - 1]` with `SIZE =
calc_tree_size(LEAFS_N)`. -/
def root (hash : List Nat → α) (hb : α → List Nat) (d : List (List Nat)) : α :=
  (build hash hb d).getD (calc_tree_size d.length - 1) default

variable [DecidableEq α]

/-- The scanning loop of `TreeBase::find_leaf` (non-iterable branch): from
position `i` with `k` slots left to examine, the first position whose stored
hash equals the target, else the `(size_t)-1` sentinel. -/
def scanFrom (md : List α) (t : α) : Nat → Nat → Nat
  | _, 0 => 2 ^ 64 - 1
  | i, k + 1 => if md.getD i default = t then i else scanFrom md t (i + 1) k

/-- Model of `TreeBase::find_leaf`: scan the first `leafs_n` stored slots for the
target hash; `2^64 - 1` renders the `(size_t)-1` "not found" sentinel. -/
def find_leaf (md : List α) (leafs_n : Nat) (t : α) : Nat :=
  scanFrom md t 0 leafs_n

/-- Model of `TreeBase::verify(data) = find_leaf(data) != (size_t)-1` on a tree built
from `d`. -/
def verify (hash : List Nat → α) (hb : α → List Nat) (d : List (List Nat))
    (x : List Nat) : Bool :=
  decide (find_leaf (build hash hb d) d.length (leaf_hash hash x) ≠ 2 ^ 64 - 1)

/-- Model of `FixedSizeTree::get_proof(data)` for `LEAFS_N ≥ 2` (the general
`if constexpr` branch): the pair of the matched leaf hash and the proof
array.  Entry `i` of the proof holds the sibling
`get_layer(height - i).first[idx + (idx & 1 ? -1 : 1)]` and the direction
flag `idx & 1`, with `idx` halved at each level; the final entry carries the
root.  If the data has no leaf, the pair of a default hash and a
default-initialised array is returned. -/
def get_proof (hash : List Nat → α) (hb : α → List Nat) (d : List (List Nat))
    (x : List Nat) : α × List (α × Bool) :=
  let md := build hash hb d
  let n := d.length
  let h := height n
  let idx := find_leaf md n (leaf_hash hash x)
  if idx = 2 ^ 64 - 1 then (default, List.replicate (h + 1) (default, false))
  else
    (md.getD idx default,
      ((List.range h).map fun i =>
        let k := idx / 2 ^ i
        (md.getD ((get_layer n (h - i)).1 + (if k % 2 = 1 then k - 1 else k + 1)) default,
          decide (k % 2 = 1)))
      ++ [(root hash hb d, false)])

/-- Model of `FixedSizeTree::get_proof(data)` for `LEAFS_N == 1` (that `if constexpr`
branch returns the bare proof array, with no leaf-hash component): the one
stored hash when the node-salted hash of the data matches it, else the
default-initialised array. -/
def get_proof_one (hash : List Nat → α) (d0 x : List Nat) : List (α × Bool) :=
  if node_hashP hash x = node_hashP hash d0 then [(node_hashP hash d0, false)]
  else [(default, false)]

/-- Model of `FixedSizeTree::verify_proof(data, proof)`: start from
`leaf_hash(data)`, fold every proof entry but the last (direction flag true:
sibling concatenated before the running hash; false: after), and compare the
result with the root asserted by the last entry.  The source reads that last
entry with `proof(proof.size() - 1)` — a function-call expression; for the
`std::array` proofs the class itself produces, `operator()` does not exist
and the call cannot compile, so the asserted-root lookup is modelled as the
indexing `proof[proof.size() - 1]` used by the fold loop one line below
(this is the reading that the doc comment of the function, the replay loop in the tests and
the spec describe; see the C3 record). -/
def verify_proof (hash : List Nat → α) (hb : α → List Nat) (x : List Nat)
    (proof : List (α × Bool)) : Bool :=
  let supposed_root := (proof.getD (proof.length - 1) default).1
  let curr := (proof.take (proof.length - 1)).foldl
    (fun c p => if p.2 then node_hash hash hb p.1 c else node_hash hash hb c p.1)
    (leaf_hash hash x)
  decide (curr = supposed_root)

/-! ### Fuel adequacy

Each fuel-indexed loop rendering is independent of the fuel as soon as the
fuel bounds the iteration count; the recurrences the loops satisfy follow. -/

theorem round_to_even_div (n : Nat) : round_to_even n / 2 = (n + 1) / 2 := by
  unfold round_to_even; omega

theorem ctsF_succ (f n : Nat) :
    ctsF (f + 1) n = if n ≤ 1 then 1 else round_to_even n + ctsF f (round_to_even n / 2) :=
  rfl

theorem ctsF_fuel : ∀ f g n, n ≤ f → n ≤ g → ctsF f n = ctsF g n := by
  intro f
  induction f using Nat.strong_induction_on with
  | _ f ih =>
    intro g n hf hg
    match f, g with
    | 0, g => interval_cases n <;> cases g <;> simp [ctsF]
    | f + 1, 0 => interval_cases n <;> simp [ctsF]
    | f + 1, g + 1 =>
      by_cases h1 : n ≤ 1
      · simp [ctsF, h1]
      · have hrec : round_to_even n / 2 < n := by unfold round_to_even; omega
        simp only [ctsF, h1, if_false]
        rw [ih f (by omega) f (round_to_even n / 2) (by omega) (by omega),
          ih f (by omega) g (round_to_even n / 2) (by omega) (by omega)]

theorem calc_tree_size_base {n : Nat} (h : n ≤ 1) : calc_tree_size n = 1 := by
  unfold calc_tree_size; interval_cases n <;> simp [ctsF]

theorem calc_tree_size_rec {n : Nat} (h : 2 ≤ n) :
    calc_tree_size n = round_to_even n + calc_tree_size ((n + 1) / 2) := by
  unfold calc_tree_size
  match n, h with
  | n + 2, _ =>
    rw [ctsF_succ, if_neg (by omega), round_to_even_div,
      ctsF_fuel (n + 1) ((n + 2 + 1) / 2) ((n + 2 + 1) / 2) (by omega) (by omega)]

theorem popcountF_succ (f n : Nat) :
    popcountF (f + 1) n = if n = 0 then 0 else popcountF f (n / 2) + n % 2 :=
  rfl

theorem popcountF_fuel : ∀ f g n, n ≤ f → n ≤ g → popcountF f n = popcountF g n := by
  intro f
  induction f using Nat.strong_induction_on with
  | _ f ih =>
    intro g n hf hg
    match f, g with
    | 0, g => cases g <;> simp_all [popcountF, show n = 0 by omega]
    | f + 1, 0 => simp_all [popcountF, show n = 0 by omega]
    | f + 1, g + 1 =>
      by_cases h0 : n = 0
      · simp [popcountF, h0]
      · simp only [popcountF, h0, if_false]
        rw [ih f (by omega) f (n / 2) (by omega) (by omega),
          ih f (by omega) g (n / 2) (by omega) (by omega)]

theorem popcount_rec {n : Nat} (h : 1 ≤ n) : popcount n = popcount (n / 2) + n % 2 := by
  unfold popcount
  match n, h with
  | n + 1, _ =>
    rw [popcountF_succ, if_neg (by omega),
      popcountF_fuel n ((n + 1) / 2) ((n + 1) / 2) (by omega) (by omega)]

theorem log2F_succ (f n : Nat) :
    log2F (f + 1) n = if 2 ≤ n then log2F f (n / 2) + 1 else 0 :=
  rfl

theorem log2F_fuel : ∀ f g n, n ≤ f → n ≤ g → log2F f n = log2F g n := by
  intro f
  induction f using Nat.strong_induction_on with
  | _ f ih =>
    intro g n hf hg
    match f, g with
    | 0, g => cases g <;> simp_all [log2F, show n = 0 by omega]
    | f + 1, 0 => simp_all [log2F, show n = 0 by omega]
    | f + 1, g + 1 =>
      by_cases h2 : 2 ≤ n
      · simp only [log2F, h2, if_true]
        rw [ih f (by omega) f (n / 2) (by omega) (by omega),
          ih f (by omega) g (n / 2) (by omega) (by omega)]
      · simp [log2F, h2]

/-- The standalone value of the loop inside `ilog2` (the `x ≠ 0` branch). -/
def flog2 (n : Nat) : Nat := log2F n n

theorem flog2_base {n : Nat} (h : n ≤ 1) : flog2 n = 0 := by
  unfold flog2; interval_cases n <;> simp [log2F]

theorem flog2_rec {n : Nat} (h : 2 ≤ n) : flog2 n = flog2 (n / 2) + 1 := by
  unfold flog2
  match n, h with
  | n + 2, _ =>
    rw [log2F_succ, if_pos (by omega),
      log2F_fuel (n + 1) ((n + 2) / 2) ((n + 2) / 2) (by omega) (by omega)]

/-- The loop behind the nonzero branch of `ilog2` computes the floor base-2 logarithm. -/
theorem flog2_eq_log : ∀ n, flog2 n = Nat.log 2 n := by
  intro n
  induction n using Nat.strong_induction_on with
  | _ n ih =>
    by_cases h2 : 2 ≤ n
    · rw [flog2_rec h2, ih (n / 2) (by omega), Nat.log_div_base,
        Nat.sub_add_cancel (Nat.log_pos (by omega) h2)]
    · interval_cases n
      · rw [flog2_base (by omega), Nat.log_zero_right]
      · rw [flog2_base (by omega), Nat.log_one_right]

theorem ilog2_eq_log {n : Nat} (h : 1 ≤ n) : ilog2 n = Nat.log 2 n := by
  unfold ilog2
  rw [if_neg (by omega)]
  exact flog2_eq_log n

/-! ### Level combinators -/

theorem parents_length [Inhabited α] (nh : α → α → α) :
    ∀ lvl : List α, (parents nh lvl).length = lvl.length / 2
  | [] => by simp [parents]
  | [_] => by simp [parents]
  | _ :: _ :: t => by
    simp [parents, parents_length nh t]
    omega

theorem evenize_length [Inhabited α] (lvl : List α) :
    (evenize lvl).length = round_to_even lvl.length := by
  unfold evenize round_to_even
  by_cases h : lvl.length % 2 = 1 <;> simp [h] <;> omega

theorem storageF_zero [Inhabited α] (nh : α → α → α) (lvl : List α) :
    storageF nh 0 lvl = lvl :=
  rfl

theorem storageF_succ [Inhabited α] (nh : α → α → α) (f : Nat) (lvl : List α) :
    storageF nh (f + 1) lvl =
      if lvl.length ≤ 1 then lvl else evenize lvl ++ storageF nh f (parents nh (evenize lvl)) :=
  rfl

theorem storageF_fuel [Inhabited α] (nh : α → α → α) :
    ∀ f g (lvl : List α), lvl.length ≤ f → lvl.length ≤ g →
      storageF nh f lvl = storageF nh g lvl := by
  intro f
  induction f using Nat.strong_induction_on with
  | _ f ih =>
    intro g lvl hf hg
    match f, g with
    | 0, g =>
      have : lvl = [] := List.eq_nil_of_length_eq_zero (by omega)
      cases g <;> simp [this, storageF]
    | f + 1, 0 =>
      have : lvl = [] := List.eq_nil_of_length_eq_zero (by omega)
      simp [this, storageF]
    | f + 1, g + 1 =>
      by_cases h1 : lvl.length ≤ 1
      · simp [storageF, h1]
      · have hpar : (parents nh (evenize lvl)).length < lvl.length := by
          rw [parents_length, evenize_length]; unfold round_to_even; omega
        simp only [storageF, h1, if_false]
        rw [ih f (by omega) f (parents nh (evenize lvl)) (by omega) (by omega),
          ih f (by omega) g (parents nh (evenize lvl)) (by omega) (by omega)]

theorem getD_drop [Inhabited α] (l : List α) (n m : Nat) :
    (l.drop n).getD m default = l.getD (n + m) default := by
  rw [List.getD_eq_getElem?_getD, List.getD_eq_getElem?_getD, List.getElem?_drop]

theorem storage_base [Inhabited α] (nh : α → α → α) (lvl : List α) (h : lvl.length ≤ 1) :
    storage nh lvl = lvl := by
  unfold storage
  obtain h0 | h1 : lvl.length = 0 ∨ lvl.length = 1 := by omega
  · rw [h0, storageF_zero]
  · rw [h1, storageF_succ, if_pos h]

theorem storage_rec [Inhabited α] (nh : α → α → α) (lvl : List α) (h : 2 ≤ lvl.length) :
    storage nh lvl = evenize lvl ++ storage nh (parents nh (evenize lvl)) := by
  obtain ⟨m, hm⟩ : ∃ m, lvl.length = m + 2 := ⟨lvl.length - 2, by omega⟩
  have hpar : (parents nh (evenize lvl)).length = (lvl.length + 1) / 2 := by
    rw [parents_length, evenize_length, round_to_even_div]
  unfold storage
  rw [hm, storageF_succ, if_neg (by omega),
    storageF_fuel nh (m + 1) (parents nh (evenize lvl)).length _ (by omega) (le_refl _)]

theorem evenize_getD [Inhabited α] (lvl : List α) (j : Nat) (hj : j < lvl.length) :
    (evenize lvl).getD j default = lvl.getD j default := by
  unfold evenize
  split
  · exact List.getD_append _ _ _ _ hj
  · rfl

theorem evenize_getD_dup [Inhabited α] (lvl : List α) (h : lvl.length % 2 = 1) :
    (evenize lvl).getD lvl.length default = lvl.getD (lvl.length - 1) default := by
  unfold evenize
  rw [if_pos h, List.getD_append_right _ _ _ _ (le_refl _), Nat.sub_self,
    List.getD_cons_zero]

theorem parents_getD [Inhabited α] (nh : α → α → α) :
    ∀ (lvl : List α) (m : Nat), 2 * m + 1 < lvl.length →
      (parents nh lvl).getD m default
        = nh (lvl.getD (2 * m) default) (lvl.getD (2 * m + 1) default)
  | x :: y :: t, 0, _ => by simp [parents]
  | x :: y :: t, m + 1, h => by
    have ht : 2 * m + 1 < t.length := by simp at h; omega
    have h1 : 2 * (m + 1) = 2 * m + 1 + 1 := by omega
    have h2 : 2 * (m + 1) + 1 = 2 * m + 1 + 1 + 1 := by omega
    simp only [parents, List.getD_cons_succ, h1, h2]
    exact parents_getD nh t m ht
  | [], m, h => by simp at h
  | [x], m, h => by simp at h

/-! ### The levels of the build fold and their layout in the storage -/

/-- The successive levels of the build fold: level 0 is the leaf level, each
further level pairs up the evened previous one. -/
def levels (nh : α → α → α) (lvl : List α) : Nat → List α
  | 0 => lvl
  | i + 1 => parents nh (evenize (levels nh lvl i))

/-- The halving chain of level lengths: each level is half the evened length
of the one below. -/
def lsize (n : Nat) : Nat → Nat
  | 0 => n
  | i + 1 => (lsize n i + 1) / 2

/-- Start offset of level `i` in the flattened storage: the evened lengths
of all lower levels. -/
def loff (n : Nat) : Nat → Nat
  | 0 => 0
  | i + 1 => loff n i + round_to_even (lsize n i)

theorem levels_length [Inhabited α] (nh : α → α → α) (lvl : List α) :
    ∀ i, (levels nh lvl i).length = lsize lvl.length i
  | 0 => rfl
  | i + 1 => by
    rw [levels, lsize, parents_length, evenize_length, round_to_even_div,
      levels_length nh lvl i]

theorem lsize_shift (n : Nat) : ∀ i, lsize n (i + 1) = lsize ((n + 1) / 2) i
  | 0 => rfl
  | i + 1 => by rw [lsize, lsize_shift n i]; rfl

/-- The halving chain from `n ≥ 1` leaves reaches length 1 in exactly
`⌈log₂ n⌉` steps, every earlier level having at least two entries. -/
theorem lsize_chain : ∀ n, 1 ≤ n →
    lsize n (Nat.clog 2 n) = 1 ∧ ∀ i, i < Nat.clog 2 n → 2 ≤ lsize n i := by
  intro n
  induction n using Nat.strong_induction_on with
  | _ n ih =>
    intro hn
    by_cases h2 : 2 ≤ n
    · have hc : Nat.clog 2 n = Nat.clog 2 ((n + 1) / 2) + 1 := by
        rw [Nat.clog_of_two_le (by omega) h2,
          show n + 2 - 1 = n + 1 from by omega]
      obtain ⟨ha, hb⟩ := ih ((n + 1) / 2) (by omega) (by omega)
      refine ⟨?_, ?_⟩
      · rw [hc, lsize_shift, ha]
      · intro i hi
        cases i with
        | zero => exact h2
        | succ j =>
          rw [lsize_shift]
          exact hb j (by omega)
    · have h1 : n = 1 := by omega
      subst h1
      refine ⟨by rw [Nat.clog_one_right]; rfl, fun i hi => ?_⟩
      rw [Nat.clog_one_right] at hi
      omega

theorem getD_zero_drop [Inhabited α] (l : List α) (n : Nat) :
    (l.drop n).getD 0 default = l.getD n default := by
  rw [getD_drop, Nat.add_zero]

/-- Dropping the offset of level `i` from the storage leaves the storage
grown from level `i`. -/
theorem storage_drop [Inhabited α] (nh : α → α → α) (lvl : List α) :
    ∀ i, (∀ j, j < i → 2 ≤ lsize lvl.length j) →
      (storage nh lvl).drop (loff lvl.length i) = storage nh (levels nh lvl i)
  | 0, _ => by rw [loff, List.drop_zero, levels]
  | i + 1, hj => by
    have hprev := storage_drop nh lvl i (fun j hj' => hj j (by omega))
    have h2i : 2 ≤ (levels nh lvl i).length := by
      rw [levels_length]
      exact hj i (by omega)
    have hev : (evenize (levels nh lvl i)).length = round_to_even (lsize lvl.length i) := by
      rw [evenize_length, levels_length]
    rw [loff, ← List.drop_drop, hprev, storage_rec nh _ h2i, ← hev, List.drop_left, levels]

/-- The storage built from `n ≥ 1` leaves occupies exactly
`calc_tree_size n` slots — the statically allocated `std::array` size. -/
theorem storage_length [Inhabited α] (nh : α → α → α) :
    ∀ n (lvl : List α), lvl.length = n → 1 ≤ n →
      (storage nh lvl).length = calc_tree_size n := by
  intro n
  induction n using Nat.strong_induction_on with
  | _ n ih =>
    intro lvl hlen hn
    by_cases h2 : 2 ≤ n
    · have hplen : (parents nh (evenize lvl)).length = (n + 1) / 2 := by
        rw [parents_length, evenize_length, round_to_even_div, hlen]
      rw [storage_rec nh lvl (by omega), List.length_append, evenize_length, hlen,
        ih ((n + 1) / 2) (by omega) _ hplen (by omega),
        calc_tree_size_rec h2]
    · have h1 : n = 1 := by omega
      subst h1
      rw [storage_base nh lvl (by omega), hlen, calc_tree_size_base (by omega)]

/-- The last storage slot (`m_data[SIZE - 1]`, what `root()` returns) holds
the single hash of the topmost level. -/
theorem storage_root [Inhabited α] (nh : α → α → α) (lvl : List α) (h1 : 1 ≤ lvl.length) :
    (storage nh lvl).getD (calc_tree_size lvl.length - 1) default
      = (levels nh lvl (Nat.clog 2 lvl.length)).getD 0 default := by
  obtain ⟨htop, hlow⟩ := lsize_chain lvl.length h1
  have hdrop := storage_drop nh lvl (Nat.clog 2 lvl.length) (fun j hj => hlow j hj)
  have htlen : (levels nh lvl (Nat.clog 2 lvl.length)).length = 1 := by
    rw [levels_length, htop]
  have hsb : storage nh (levels nh lvl (Nat.clog 2 lvl.length))
      = levels nh lvl (Nat.clog 2 lvl.length) :=
    storage_base nh _ (by omega)
  have hslen : (storage nh lvl).length = calc_tree_size lvl.length :=
    storage_length nh lvl.length lvl rfl h1
  have hoff : loff lvl.length (Nat.clog 2 lvl.length) = calc_tree_size lvl.length - 1 := by
    have := congrArg List.length hdrop
    rw [List.length_drop, hsb, htlen, hslen] at this
    have hle : loff lvl.length (Nat.clog 2 lvl.length) ≤ calc_tree_size lvl.length := by
      by_contra hgt
      omega
    omega
  rw [← hoff, ← getD_zero_drop, hdrop, hsb]

/-! ### The height arithmetic -/

theorem popcount_pos : ∀ n, 1 ≤ n → 1 ≤ popcount n := by
  intro n
  induction n using Nat.strong_induction_on with
  | _ n ih =>
    intro hn
    rw [popcount_rec hn]
    by_cases h2 : 2 ≤ n
    · have := ih (n / 2) (by omega) (by omega)
      omega
    · have h1 : n = 1 := by omega
      subst h1
      omega

/-- A number with a single set bit in binary is exactly a power of two (in
the form `2 ^ ⌊log₂ n⌋ = n`). -/
theorem popcount_eq_one_iff : ∀ n, 1 ≤ n → (popcount n = 1 ↔ 2 ^ Nat.log 2 n = n) := by
  intro n
  induction n using Nat.strong_induction_on with
  | _ n ih =>
    intro hn
    by_cases h2 : 2 ≤ n
    · have hlog : Nat.log 2 n = Nat.log 2 (n / 2) + 1 := by
        have hp := Nat.log_pos (by omega : 1 < 2) h2
        rw [Nat.log_div_base]
        omega
      by_cases hodd : n % 2 = 1
      · have hdvd : 2 ∣ 2 ^ Nat.log 2 n := dvd_pow_self 2 (by omega)
        have hpc := popcount_pos (n / 2) (by omega)
        rw [popcount_rec (by omega)]
        constructor
        · intro h
          omega
        · intro h
          rw [h] at hdvd
          omega
      · have hiff := ih (n / 2) (by omega) (by omega)
        rw [popcount_rec (by omega), hlog, pow_succ]
        have heven : 2 * (n / 2) = n := by omega
        constructor
        · intro h
          have := hiff.mp (by omega)
          omega
        · intro h
          have : 2 ^ Nat.log 2 (n / 2) = n / 2 := by omega
          have := hiff.mpr this
          omega
    · have h1 : n = 1 := by omega
      subst h1
      rw [show popcount 1 = 1 from rfl, Nat.log_one_right]
      norm_num

/-- The ceiling base-2 logarithm as the floor one plus a non-power-of-two
correction. -/
theorem clog_eq_log_add {n : Nat} (h : 1 ≤ n) :
    Nat.clog 2 n = Nat.log 2 n + (if 2 ^ Nat.log 2 n = n then 0 else 1) := by
  by_cases hp : 2 ^ Nat.log 2 n = n
  · rw [if_pos hp, Nat.add_zero]
    conv_lhs => rw [← hp]
    rw [Nat.clog_pow _ _ (by omega)]
  · rw [if_neg hp]
    have hub : Nat.clog 2 n ≤ Nat.log 2 n + 1 := by
      rw [← Nat.le_pow_iff_clog_le (by omega)]
      exact Nat.le_of_lt (Nat.lt_pow_succ_log_self (by omega) n)
    have hlb : Nat.log 2 n < Nat.clog 2 n := by
      by_contra hle
      have hle' : Nat.clog 2 n ≤ Nat.log 2 n := by omega
      have h1 : n ≤ 2 ^ Nat.log 2 n := (Nat.le_pow_iff_clog_le (by omega)).mpr hle'
      have h2 : 2 ^ Nat.log 2 n ≤ n := Nat.pow_log_le_self 2 (by omega)
      exact hp (by omega)
    omega

/-- Below `2^32` (where the truncated popcount is the true one),
`TreeBase::height` computes the ceiling base-2 logarithm of the leaf
count — the level count of the tree. -/
theorem height_eq_clog {n : Nat} (h1 : 1 ≤ n) (h2 : n < 2 ^ 32) :
    height n = Nat.clog 2 n := by
  unfold height
  rw [if_neg (by omega), ilog2_eq_log h1, Nat.mod_eq_of_lt h2, clog_eq_log_add h1]
  have hiff := popcount_eq_one_iff n h1
  by_cases hp : popcount n = 1
  · rw [if_pos hp, if_pos (hiff.mp hp)]
  · rw [if_neg hp, if_neg (fun hpow => hp (hiff.mpr hpow))]

/-- Every count is at most `2 ^ ⌈log₂ n⌉`. -/
theorem le_pow_clog2 (n : Nat) : n ≤ 2 ^ Nat.clog 2 n :=
  Nat.le_pow_clog (by omega) n

/-! ### The `get_layer` walk -/

theorem layerWalk_succ : ∀ (k : Nat) (p : Nat × Nat),
    layerWalk (k + 1) p = layerStep (layerWalk k p)
  | 0, p => rfl
  | k + 1, p => by
    rw [show layerWalk (k + 1 + 1) p = layerWalk (k + 1) (layerStep p) from rfl,
      layerWalk_succ k (layerStep p)]
    rfl

theorem layerWalk_closed (n : Nat) : ∀ k,
    layerWalk k (0, round_to_even n) = (loff n k, round_to_even (lsize n k))
  | 0 => rfl
  | k + 1 => by
    rw [layerWalk_succ, layerWalk_closed n k]
    unfold layerStep
    rw [show (loff n k, round_to_even (lsize n k)).1 = loff n k from rfl,
      show (loff n k, round_to_even (lsize n k)).2 = round_to_even (lsize n k) from rfl,
      round_to_even_div]
    rfl

/-- Value of `get_layer` at layer index `height - i` (for `i ≤ height`, `N < 2^32`):
the offset is the accumulated evened length of the levels below level `i`,
the reported length is the evened level length (less one for the root). -/
theorem get_layer_eq {n : Nat} (h1 : 1 ≤ n) (h2 : n < 2 ^ 32) (i : Nat)
    (hi : i ≤ Nat.clog 2 n) :
    get_layer n (Nat.clog 2 n - i)
      = (loff n i,
         round_to_even (lsize n i) - (if Nat.clog 2 n - i = 0 then 1 else 0)) := by
  unfold get_layer
  rw [height_eq_clog h1 h2, show Nat.clog 2 n - (Nat.clog 2 n - i) = i from by omega,
    layerWalk_closed]

/-! ### The `find_leaf` scan -/

/-- The scan either reports the sentinel with no match in the scanned range,
or the first matching position in that range. -/
theorem scanFrom_spec (md : List α) (t : α) : ∀ k i,
    (scanFrom md t i k = 2 ^ 64 - 1 ∧ ∀ j, i ≤ j → j < i + k → md.getD j default ≠ t)
    ∨ (i ≤ scanFrom md t i k ∧ scanFrom md t i k < i + k
        ∧ md.getD (scanFrom md t i k) default = t
        ∧ ∀ j, i ≤ j → j < scanFrom md t i k → md.getD j default ≠ t) := by
  intro k
  induction k with
  | zero =>
    intro i
    exact Or.inl ⟨rfl, fun j h1 h2 => by omega⟩
  | succ k ih =>
    intro i
    by_cases hm : md.getD i default = t
    · refine Or.inr ?_
      rw [show scanFrom md t i (k + 1) = i from by rw [scanFrom]; rw [if_pos hm]]
      exact ⟨le_refl i, by omega, hm, fun j h1 h2 => by omega⟩
    · have hstep : scanFrom md t i (k + 1) = scanFrom md t (i + 1) k := by
        rw [scanFrom, if_neg hm]
      rcases ih (i + 1) with ⟨hs, hnone⟩ | ⟨hlo, hhi, hmatch, hmin⟩
      · refine Or.inl ⟨by rw [hstep]; exact hs, fun j h1 h2 => ?_⟩
        rcases Nat.eq_or_lt_of_le h1 with heq | hlt
        · subst heq; exact hm
        · exact hnone j (by omega) (by omega)
      · refine Or.inr ⟨by rw [hstep]; omega, by rw [hstep]; omega,
          by rw [hstep]; exact hmatch, fun j h1 h2 => ?_⟩
        rw [hstep] at h2
        rcases Nat.eq_or_lt_of_le h1 with heq | hlt
        · subst heq; exact hm
        · exact hmin j (by omega) h2

/-- The scan reads only the scanned slots: two buffers agreeing on the
scanned range scan identically. -/
theorem scanFrom_congr (md md' : List α) (t : α) : ∀ k i,
    (∀ j, i ≤ j → j < i + k → md.getD j default = md'.getD j default) →
    scanFrom md t i k = scanFrom md' t i k := by
  intro k
  induction k with
  | zero => intro i _; rfl
  | succ k ih =>
    intro i hagree
    have h0 : md.getD i default = md'.getD i default :=
      hagree i (le_refl i) (by omega)
    by_cases hm : md'.getD i default = t
    · rw [scanFrom, scanFrom, if_pos hm, if_pos (by rw [h0]; exact hm)]
    · rw [scanFrom, scanFrom, if_neg hm, if_neg (by rw [h0]; exact hm)]
      exact ih (i + 1) (fun j h1 h2 => hagree j (by omega) (by omega))

/-- Characterisation of `find_leaf`: the sentinel with no stored leaf matching, or
the smallest matching position among the first `n` slots. -/
theorem find_leaf_spec (md : List α) (n : Nat) (t : α) :
    (find_leaf md n t = 2 ^ 64 - 1 ∧ ∀ j, j < n → md.getD j default ≠ t)
    ∨ (find_leaf md n t < n ∧ md.getD (find_leaf md n t) default = t
        ∧ ∀ j, j < find_leaf md n t → md.getD j default ≠ t) := by
  unfold find_leaf
  rcases scanFrom_spec md t n 0 with ⟨hs, hnone⟩ | ⟨_, hhi, hmatch, hmin⟩
  · exact Or.inl ⟨hs, fun j hj => hnone j (by omega) (by omega)⟩
  · exact Or.inr ⟨by omega, hmatch, fun j hj => hmin j (by omega) hj⟩

/-- If some slot in range matches, `find_leaf` finds one (in range). -/
theorem find_leaf_found (md : List α) (n : Nat) (t : α) (j : Nat)
    (hj : j < n) (hm : md.getD j default = t) :
    find_leaf md n t < n ∧ md.getD (find_leaf md n t) default = t := by
  rcases find_leaf_spec md n t with ⟨_, hnone⟩ | ⟨hhi, hmatch, _⟩
  · exact absurd hm (hnone j hj)
  · exact ⟨hhi, hmatch⟩

/-! ### Proof generation against the storage layout -/

/-- The first `lvl.length` storage slots are the leaf level itself. -/
theorem storage_getD_low [Inhabited α] (nh : α → α → α) (lvl : List α) (j : Nat)
    (h2 : 2 ≤ lvl.length) (hj : j < lvl.length) :
    (storage nh lvl).getD j default = lvl.getD j default := by
  rw [storage_rec nh lvl h2,
    List.getD_append _ _ _ _ (by rw [evenize_length]; unfold round_to_even; omega),
    evenize_getD _ _ hj]

/-- Behaviour of `verify_proof` on a proof written as entries-then-asserted-root: the
fold of the entries in order, compared with the asserted root; the last
flag of that entry is ignored and the tree storage is not consulted. -/
theorem verify_proof_append (hash : List Nat → α) (hb : α → List Nat) (x : List Nat)
    (entries : List (α × Bool)) (r : α) (b : Bool) :
    verify_proof hash hb x (entries ++ [(r, b)])
      = decide ((entries.foldl
          (fun c p => if p.2 then node_hash hash hb p.1 c else node_hash hash hb c p.1)
          (leaf_hash hash x)) = r) := by
  unfold verify_proof
  have hlen : (entries ++ [(r, b)]).length = entries.length + 1 := by
    rw [List.length_append, List.length_singleton]
  rw [hlen, Nat.add_sub_cancel, List.take_left,
    List.getD_append_right _ _ _ _ (le_refl _), Nat.sub_self, List.getD_cons_zero]

/-- The fold invariant of proof verification against the built storage:
after consuming the first `i` proof entries produced for leaf position
`idx`, the running hash is entry `idx / 2^i` of level `i`, and that index is
inside the level. -/
theorem proof_fold (hash : List Nat → α) (hb : α → List Nat) (lvs : List α)
    (h2 : 2 ≤ lvs.length) (h32 : lvs.length < 2 ^ 32)
    (idx : Nat) (hidx : idx < lvs.length) :
    ∀ i, i ≤ Nat.clog 2 lvs.length →
      (((List.range i).map fun t =>
          ((storage (node_hash hash hb) lvs).getD
             ((get_layer lvs.length (Nat.clog 2 lvs.length - t)).1
               + (if (idx / 2 ^ t) % 2 = 1 then idx / 2 ^ t - 1 else idx / 2 ^ t + 1))
             default,
            decide ((idx / 2 ^ t) % 2 = 1))).foldl
        (fun c p => if p.2 then node_hash hash hb p.1 c else node_hash hash hb c p.1)
        (lvs.getD idx default)
      = (levels (node_hash hash hb) lvs i).getD (idx / 2 ^ i) default)
      ∧ idx / 2 ^ i < lsize lvs.length i := by
  intro i
  induction i with
  | zero =>
    intro _
    refine ⟨?_, ?_⟩
    · rw [List.range_zero, List.map_nil, List.foldl_nil]
      rw [show levels (node_hash hash hb) lvs 0 = lvs from rfl, pow_zero, Nat.div_one]
    · rw [pow_zero, Nat.div_one]
      exact hidx
  | succ i ih =>
    intro hi1
    obtain ⟨hfold, hbound⟩ := ih (by omega)
    have hs2 : 2 ≤ lsize lvs.length i :=
      (lsize_chain lvs.length (by omega)).2 i (by omega)
    have hlevlen : (levels (node_hash hash hb) lvs i).length = lsize lvs.length i :=
      levels_length _ lvs i
    have hevlen : (evenize (levels (node_hash hash hb) lvs i)).length
        = round_to_even (lsize lvs.length i) := by
      rw [evenize_length, hlevlen]
    have hlayer : (get_layer lvs.length (Nat.clog 2 lvs.length - i)).1 = loff lvs.length i := by
      rw [get_layer_eq (by omega) h32 i (by omega)]
    have hread : ∀ s, s < round_to_even (lsize lvs.length i) →
        (storage (node_hash hash hb) lvs).getD (loff lvs.length i + s) default
          = (evenize (levels (node_hash hash hb) lvs i)).getD s default := by
      intro s hs
      rw [← getD_drop,
        storage_drop _ lvs i (fun j hj => (lsize_chain lvs.length (by omega)).2 j (by omega)),
        storage_rec _ _ (by rw [hlevlen]; exact hs2),
        List.getD_append _ _ _ _ (by rw [hevlen]; exact hs)]
    have hki : idx / 2 ^ i / 2 = idx / 2 ^ (i + 1) := by
      rw [Nat.div_div_eq_div_mul, pow_succ]
    have hlvlsucc : levels (node_hash hash hb) lvs (i + 1)
        = parents (node_hash hash hb) (evenize (levels (node_hash hash hb) lvs i)) := rfl
    have hcur : (levels (node_hash hash hb) lvs i).getD (idx / 2 ^ i) default
        = (evenize (levels (node_hash hash hb) lvs i)).getD (idx / 2 ^ i) default := by
      rw [evenize_getD _ _ (by rw [hlevlen]; exact hbound)]
    refine ⟨?_, ?_⟩
    · rw [List.range_succ, List.map_append, List.foldl_append, hfold,
        List.map_singleton, List.foldl_cons, List.foldl_nil, hlayer]
      by_cases hodd : (idx / 2 ^ i) % 2 = 1
      · rw [if_pos hodd, hread (idx / 2 ^ i - 1) (by unfold round_to_even; omega),
          if_pos (by rw [hodd]; exact rfl), hcur, hlvlsucc, ← hki,
          parents_getD _ _ (idx / 2 ^ i / 2)
            (by rw [hevlen]; unfold round_to_even; omega)]
        dsimp only
        set ki := idx / 2 ^ i with hkidef
        set m := ki / 2 with hmdef
        rw [show ki - 1 = 2 * m from by omega, show ki = 2 * m + 1 from by omega]
      · rw [if_neg hodd, hread (idx / 2 ^ i + 1) (by unfold round_to_even; omega),
          if_neg (by simp only [decide_eq_true_eq]; exact hodd), hcur, hlvlsucc, ← hki,
          parents_getD _ _ (idx / 2 ^ i / 2)
            (by rw [hevlen]; unfold round_to_even; omega)]
        dsimp only
        set ki := idx / 2 ^ i with hkidef
        set m := ki / 2 with hmdef
        rw [show ki + 1 = 2 * m + 1 from by omega, show ki = 2 * m from by omega]
    · rw [← hki, show lsize lvs.length (i + 1) = (lsize lvs.length i + 1) / 2 from rfl]
      omega

/-- C1 (amended to `2 ≤ N < 2^32`): on a tree built from exactly `N` items,
for every item `x` of the collection, `verify_proof(x, p)` returns true
where `p` is the proof component of `get_proof(x)`.  The two bounds are
forced by the code: at `N = 1` the degenerate proof asserts the node-salted
root while `verify_proof` starts from `leaf_hash` (see the C1
counterexample), and above `2^32` the `height` arithmetic is off by one
(see the C4 record).  `verify_proof` is modelled with the asserted root
read by indexing the last proof entry (see the C3 record). -/
theorem c1_roundtrip_amended (hash : List Nat → α) (hb : α → List Nat)
    (d : List (List Nat)) (x : List Nat)
    (h2 : 2 ≤ d.length) (h32 : d.length < 2 ^ 32) (hx : x ∈ d) :
    verify_proof hash hb x (get_proof hash hb d x).2 = true := by
  obtain ⟨j, hj, hjx⟩ := List.mem_iff_getElem.mp hx
  set lvs := d.map (leaf_hash hash) with hlvsdef
  have hlvs : lvs.length = d.length := by rw [hlvsdef, List.length_map]
  have hmd : build hash hb d = storage (node_hash hash hb) lvs := by
    unfold build
    rw [if_neg (by omega)]
  have hjlv : lvs.getD j default = leaf_hash hash x := by
    simp only [List.getD_eq_getElem?_getD, List.getElem?_eq_getElem (show j < lvs.length by rw [hlvs]; exact hj)]
    simp only [hlvsdef, List.getElem_map, Option.getD_some]
    rw [hjx]
  have hmdj : (build hash hb d).getD j default = leaf_hash hash x := by
    rw [hmd, storage_getD_low _ _ _ (by omega) (by rw [hlvs]; exact hj), hjlv]
  obtain ⟨hfl_lt, hfl_match⟩ :=
    find_leaf_found (build hash hb d) d.length (leaf_hash hash x) j hj hmdj
  set idx := find_leaf (build hash hb d) d.length (leaf_hash hash x) with hidxdef
  have hne : ¬ idx = 2 ^ 64 - 1 := by omega
  have hlvidx : lvs.getD idx default = leaf_hash hash x := by
    rw [← storage_getD_low (node_hash hash hb) lvs idx (by omega) (by rw [hlvs]; omega),
      ← hmd, hfl_match]
  have hgp : (get_proof hash hb d x).2
      = ((List.range (height d.length)).map fun t =>
          ((build hash hb d).getD
             ((get_layer d.length (height d.length - t)).1
               + (if (idx / 2 ^ t) % 2 = 1 then idx / 2 ^ t - 1 else idx / 2 ^ t + 1))
             default,
            decide ((idx / 2 ^ t) % 2 = 1)))
        ++ [(root hash hb d, false)] := by
    unfold get_proof
    simp only [← hidxdef]
    rw [if_neg hne]
  rw [hgp, verify_proof_append, ← hlvidx]
  simp only [hmd, ← hlvs]
  rw [height_eq_clog (by omega) (by omega)]
  rw [(proof_fold hash hb lvs (by omega) (by omega) idx (by omega)
      (Nat.clog 2 lvs.length) (le_refl _)).1]
  have hzero : idx / 2 ^ Nat.clog 2 lvs.length = 0 :=
    Nat.div_eq_of_lt (lt_of_lt_of_le (by omega) (le_pow_clog2 lvs.length))
  have hroot : root hash hb d
      = (levels (node_hash hash hb) lvs (Nat.clog 2 lvs.length)).getD 0 default := by
    unfold root
    rw [hmd, ← hlvs, storage_root (node_hash hash hb) lvs (by omega)]
  rw [hzero, hroot]
  simp

/-! ### Offset arithmetic for `get_layer` -/

theorem calc_tree_size_pos : ∀ n, 1 ≤ calc_tree_size n := by
  intro n
  induction n using Nat.strong_induction_on with
  | _ n ih =>
    by_cases h2 : 2 ≤ n
    · rw [calc_tree_size_rec h2]
      unfold round_to_even
      omega
    · rw [calc_tree_size_base (by omega)]

theorem loff_shift (n : Nat) (h2 : 2 ≤ n) : ∀ i,
    loff n (i + 1) = round_to_even n + loff ((n + 1) / 2) i
  | 0 => by
    rw [show loff n 1 = loff n 0 + round_to_even (lsize n 0) from rfl,
      show loff n 0 = 0 from rfl, show lsize n 0 = n from rfl,
      show loff ((n + 1) / 2) 0 = 0 from rfl]
    omega
  | i + 1 => by
    rw [show loff n (i + 1 + 1) = loff n (i + 1) + round_to_even (lsize n (i + 1)) from rfl,
      loff_shift n h2 i, lsize_shift,
      show loff ((n + 1) / 2) (i + 1)
        = loff ((n + 1) / 2) i + round_to_even (lsize ((n + 1) / 2) i) from rfl]
    omega

/-- The accumulated offset of the topmost level is the last storage slot:
`size() - 1`, where the root lives. -/
theorem loff_top : ∀ n, 1 ≤ n → loff n (Nat.clog 2 n) = calc_tree_size n - 1 := by
  intro n
  induction n using Nat.strong_induction_on with
  | _ n ih =>
    intro hn
    by_cases h2 : 2 ≤ n
    · have hc : Nat.clog 2 n = Nat.clog 2 ((n + 1) / 2) + 1 := by
        rw [Nat.clog_of_two_le (by omega) h2,
          show n + 2 - 1 = n + 1 from by omega]
      have hpos := calc_tree_size_pos ((n + 1) / 2)
      rw [hc, loff_shift n h2, ih ((n + 1) / 2) (by omega) (by omega),
        calc_tree_size_rec h2]
      omega
    · have h1 : n = 1 := by omega
      subst h1
      rw [Nat.clog_one_right, show loff 1 0 = 0 from rfl, calc_tree_size_base (by omega)]

/-! ### Rejection of sentinel proofs -/

/-- Folding any proof whose entries all carry the default hash still ends in
a value in the range of the hash oracle (the salted hash of some payload). -/
theorem foldl_replicate_hash (hash : List Nat → α) (hb : α → List Nat) (x : List Nat) :
    ∀ k, ∃ b : List Nat,
      ((List.replicate k ((default : α), false)).foldl
        (fun c p => if p.2 then node_hash hash hb p.1 c else node_hash hash hb c p.1)
        (leaf_hash hash x)) = hash b
  | 0 => ⟨concatU [intBytes leaf_salt, x], by rw [List.replicate_zero, List.foldl_nil]; rfl⟩
  | k + 1 => by
    obtain ⟨b, hbk⟩ := foldl_replicate_hash hash hb x k
    refine ⟨concatU [intBytes node_salt, concatU [hb (hash b), hb default]], ?_⟩
    rw [List.replicate_succ', List.foldl_append, hbk, List.foldl_cons, List.foldl_nil]
    rfl

/-! ### Membership and the `verify` wrapper -/

theorem concatU_pair (a b : List Nat) : concatU [a, b] = a ++ b := by
  unfold concatU
  rw [List.foldl_cons, List.foldl_cons, List.foldl_nil, List.nil_append]

/-- An injective oracle makes `leaf_hash` injective in the data. -/
theorem leaf_hash_inj (hash : List Nat → α)
    (hinj : ∀ b1 b2, hash b1 = hash b2 → b1 = b2) (x y : List Nat)
    (h : leaf_hash hash x = leaf_hash hash y) : x = y := by
  unfold leaf_hash at h
  have := hinj _ _ h
  rw [concatU_pair, concatU_pair] at this
  exact List.append_cancel_left this

/-- On the general branch, every stored leaf slot holds the leaf hash of the
corresponding input item. -/
theorem build_getD_leaf (hash : List Nat → α) (hb : α → List Nat)
    (d : List (List Nat)) (j : Nat) (h2 : 2 ≤ d.length) (hj : j < d.length) :
    (build hash hb d).getD j default = leaf_hash hash (d.getD j []) := by
  have hlvs : (d.map (leaf_hash hash)).length = d.length := by rw [List.length_map]
  have hmd : build hash hb d = storage (node_hash hash hb) (d.map (leaf_hash hash)) := by
    unfold build
    rw [if_neg (by omega)]
  rw [hmd, storage_getD_low _ _ _ (by omega) (by omega)]
  rw [List.getD_eq_getElem?_getD, List.getElem?_eq_getElem (by omega), Option.getD_some,
    List.getElem_map, List.getD_eq_getElem?_getD, List.getElem?_eq_getElem hj,
    Option.getD_some]

theorem verify_mem (hash : List Nat → α) (hb : α → List Nat)
    (d : List (List Nat)) (x : List Nat)
    (h2 : 2 ≤ d.length) (h64 : d.length < 2 ^ 64) (hx : x ∈ d) :
    verify hash hb d x = true := by
  obtain ⟨j, hj, hjx⟩ := List.mem_iff_getElem.mp hx
  have hmdj : (build hash hb d).getD j default = leaf_hash hash x := by
    rw [build_getD_leaf hash hb d j h2 hj]
    congr 1
    rw [List.getD_eq_getElem?_getD, List.getElem?_eq_getElem hj, Option.getD_some, hjx]
  obtain ⟨hlt, _⟩ := find_leaf_found (build hash hb d) d.length (leaf_hash hash x) j hj hmdj
  unfold verify
  rw [decide_eq_true_eq]
  omega

theorem verify_not_mem (hash : List Nat → α) (hb : α → List Nat)
    (d : List (List Nat)) (x : List Nat)
    (h2 : 2 ≤ d.length) (hinj : ∀ b1 b2, hash b1 = hash b2 → b1 = b2) (hx : ¬ x ∈ d) :
    verify hash hb d x = false := by
  have hnone : ∀ j, j < d.length →
      (build hash hb d).getD j default ≠ leaf_hash hash x := by
    intro j hj hcontra
    rw [build_getD_leaf hash hb d j h2 hj] at hcontra
    have := leaf_hash_inj hash hinj _ _ hcontra
    apply hx
    rw [← this]
    have : d.getD j [] = d[j] := by
      rw [List.getD_eq_getElem?_getD, List.getElem?_eq_getElem hj, Option.getD_some]
    rw [this]
    exact List.getElem_mem hj
  rcases find_leaf_spec (build hash hb d) d.length (leaf_hash hash x) with
    ⟨hs, _⟩ | ⟨hhi, hmatch, _⟩
  · unfold verify
    rw [decide_eq_false_iff_not]
    intro hcon
    exact hcon hs
  · exact absurd hmatch (hnone _ hhi)

/-! ### A concrete instantiation of the template parameters

Used to witness the generic theorems and to exhibit counterexamples on one
specific tree: an injective byte-list hash (base-257 with digits shifted by
one) into `Nat`, with an 8-byte little-endian rendering. -/

/-- A concrete hash oracle instantiating the `Hasher` template parameter. -/
def hashI (l : List Nat) : Nat := l.foldl (fun h x => h * 257 + x % 256 + 1) 1

/-- The byte rendering of `hashI` values (8 little-endian base-256 digits),
instantiating the hash-value serialisation of the concatenator. -/
def hbI (h : Nat) : List Nat :=
  [h % 256, h / 256 % 256, h / 256 ^ 2 % 256, h / 256 ^ 3 % 256,
   h / 256 ^ 4 % 256, h / 256 ^ 5 % 256, h / 256 ^ 6 % 256, h / 256 ^ 7 % 256]

/-! ### Specification-side height and the declared size -/

/-- The closed-form height of §3 of the specification, following the words of
the spec: 0 for `N ∈ {0, 1}`, otherwise `⌊log₂ N⌋` plus 1 when `N` is not an
exact power of two.  (`flog2` is the floor base-2 logarithm, see
`flog2_eq_log`; the power-of-two rendering `2 ^ flog2 n = n` is equivalent
to `∃ k, n = 2 ^ k`, see the fifth conjunct of the C4 record.)  To be
compared with the `height` of the source. -/
def height_spec (n : Nat) : Nat :=
  if n ≤ 1 then 0 else flog2 n + (if 2 ^ flog2 n = n then 0 else 1)

/-- The built storage fills exactly the `SIZE = calc_tree_size(LEAFS_N)`
slots the `std::array` declares. -/
theorem build_length (hash : List Nat → α) (hb : α → List Nat)
    (d : List (List Nat)) (h1 : 1 ≤ d.length) :
    (build hash hb d).length = calc_tree_size d.length := by
  unfold build
  by_cases hone : d.length = 1
  · rw [if_pos hone, hone, calc_tree_size_base (by omega), List.length_singleton]
  · rw [if_neg hone]
    exact storage_length (node_hash hash hb) d.length (d.map (leaf_hash hash))
      (by rw [List.length_map]) (by omega)

/-! ## Claim records -/

/-- C2: a tree built over five items stores, in order, the leaf level
`[h a, h b, h c, h d, h e, h e]` (the last leaf hash duplicated — the same
stored hash copied, not re-hashed from source data), the four pair nodes of
leaf pairs (0,1), (2,3), (4,5), (4,5) (the node of the duplicated pair copied),
the two next-level nodes, and the root, which is the node-hash of those
two; and `height(5) = 3`. -/
theorem c2_five_item_layout (hash : List Nat → α) (hb : α → List Nat)
    (a b c d e : List Nat) :
    build hash hb [a, b, c, d, e] =
      [leaf_hash hash a, leaf_hash hash b, leaf_hash hash c, leaf_hash hash d,
       leaf_hash hash e, leaf_hash hash e,
       node_hash hash hb (leaf_hash hash a) (leaf_hash hash b),
       node_hash hash hb (leaf_hash hash c) (leaf_hash hash d),
       node_hash hash hb (leaf_hash hash e) (leaf_hash hash e),
       node_hash hash hb (leaf_hash hash e) (leaf_hash hash e),
       node_hash hash hb (node_hash hash hb (leaf_hash hash a) (leaf_hash hash b))
         (node_hash hash hb (leaf_hash hash c) (leaf_hash hash d)),
       node_hash hash hb (node_hash hash hb (leaf_hash hash e) (leaf_hash hash e))
         (node_hash hash hb (leaf_hash hash e) (leaf_hash hash e)),
       node_hash hash hb
         (node_hash hash hb (node_hash hash hb (leaf_hash hash a) (leaf_hash hash b))
           (node_hash hash hb (leaf_hash hash c) (leaf_hash hash d)))
         (node_hash hash hb (node_hash hash hb (leaf_hash hash e) (leaf_hash hash e))
           (node_hash hash hb (leaf_hash hash e) (leaf_hash hash e)))]
    ∧ root hash hb [a, b, c, d, e] =
       node_hash hash hb
         (node_hash hash hb (node_hash hash hb (leaf_hash hash a) (leaf_hash hash b))
           (node_hash hash hb (leaf_hash hash c) (leaf_hash hash d)))
         (node_hash hash hb (node_hash hash hb (leaf_hash hash e) (leaf_hash hash e))
           (node_hash hash hb (leaf_hash hash e) (leaf_hash hash e)))
    ∧ height 5 = 3 := by
  refine ⟨?_, ?_, by decide⟩
  · simp [build, storage, storageF, evenize, parents, List.getD]
  · simp [root, build, storage, storageF, evenize, parents, List.getD, calc_tree_size, ctsF,
      round_to_even]

/-- C3: `verify_proof(data, proof)` recomputes `leaf_hash(data)`, folds the
proof entries before the last in order (`node_hash` with the sibling placed
before the running hash when the direction flag is true, after it when
false), and returns true exactly when the result equals the root asserted
by the last entry, whose flag is ignored; the storage of the built tree is not
consulted (the modelled function does not take the tree at all).  The
source reads the asserted root with `proof(proof.size() - 1)`, a
function-call expression that does not compile for the `std::array` proofs
`get_proof` produces; the theorem of this record holds for the indexed reading
`proof[proof.size() - 1]` of the same entry (the reading used by the fold
loop, the doc comment of the function, the tests and the spec). -/
theorem c3_verify_proof_fold (hash : List Nat → α) (hb : α → List Nat)
    (x : List Nat) (entries : List (α × Bool)) (r : α) (b b' : Bool) :
    verify_proof hash hb x (entries ++ [(r, b)])
      = decide ((entries.foldl
          (fun c p => if p.2 then node_hash hash hb p.1 c else node_hash hash hb c p.1)
          (leaf_hash hash x)) = r)
    ∧ verify_proof hash hb x (entries ++ [(r, b)])
      = verify_proof hash hb x (entries ++ [(r, b')]) := by
  refine ⟨verify_proof_append hash hb x entries r b, ?_⟩
  rw [verify_proof_append, verify_proof_append]

/-- C4: the built storage length always equals `calc_tree_size(N)` (the
declared `size()`), and `height(N)` matches the closed form of the spec for all
`N < 2^32` — but not beyond: the source passes the 64-bit leaf count to the
32-bit `__builtin_popcount`, so at `N = 2^32` the code returns 33 while the
closed form gives 32.  The last conjunct certifies that the chosen
power-of-two test is rendered faithfully. -/
theorem c4_size_height {β : Type} [Inhabited β] [DecidableEq β] :
    (∀ (hash : List Nat → β) (hb : β → List Nat) (d : List (List Nat)),
        1 ≤ d.length → (build hash hb d).length = calc_tree_size d.length)
    ∧ (∀ n, 1 ≤ n → n < 2 ^ 32 → height n = height_spec n)
    ∧ height (2 ^ 32) = 33
    ∧ height_spec (2 ^ 32) = 32
    ∧ (∀ n, 1 ≤ n → ((2 ^ flog2 n = n) ↔ ∃ k, n = 2 ^ k)) := by
  refine ⟨fun hash hb d h1 => build_length hash hb d h1, ?_, by decide, by decide, ?_⟩
  · intro n h1 h32
    unfold height_spec
    by_cases hle : n ≤ 1
    · have : n = 1 := by omega
      subst this
      rw [if_pos (by omega)]
      decide
    · rw [if_neg hle]
      unfold height
      rw [if_neg (by omega), Nat.mod_eq_of_lt h32,
        show ilog2 n = flog2 n from by unfold ilog2 flog2; rw [if_neg (by omega)]]
      have hiff := popcount_eq_one_iff n (by omega)
      rw [← flog2_eq_log] at hiff
      by_cases hp : popcount n = 1
      · rw [if_pos hp, if_pos (hiff.mp hp)]
      · rw [if_neg hp, if_neg (fun h => hp (hiff.mpr h))]
  · intro n h1
    constructor
    · intro h
      exact ⟨flog2 n, h.symm⟩
    · rintro ⟨k, rfl⟩
      rw [flog2_eq_log, Nat.log_pow (by omega)]

/-- C5: `leaf_hash` is the oracle on the 4-byte leaf salt followed by the
data, the two-child `node_hash` is the oracle on the 4-byte node salt
followed by the two child renderings in left-then-right order, the two salt
constants (and their byte renderings) are distinct, and for an oracle
injective on the 4-byte salt prefix a leaf hash never equals a node-domain
hash of the same payload. -/
theorem c5_domain_separation (hash : List Nat → α) (hb : α → List Nat)
    (data p : List Nat) (x y : α) :
    leaf_hash hash data = hash (intBytes leaf_salt ++ data)
    ∧ node_hash hash hb x y = hash (intBytes node_salt ++ (hb x ++ hb y))
    ∧ node_hashP hash p = hash (intBytes node_salt ++ p)
    ∧ leaf_salt ≠ node_salt
    ∧ intBytes leaf_salt ≠ intBytes node_salt
    ∧ ((∀ b1 b2, hash b1 = hash b2 → b1.take 4 = b2.take 4) →
        leaf_hash hash p ≠ node_hashP hash p) := by
  refine ⟨?_, ?_, ?_, by decide, by decide, ?_⟩
  · rw [leaf_hash, concatU_pair]
  · rw [node_hash, node_hashP, concatU_pair, concatU_pair]
  · rw [node_hashP, concatU_pair]
  · intro hpre hcontra
    unfold leaf_hash node_hashP at hcontra
    have hpref := hpre _ _ hcontra
    rw [concatU_pair, concatU_pair] at hpref
    simp [intBytes, leaf_salt, node_salt] at hpref

/-- C6: querying a proof for data with no matching leaf yields the sentinel
proof — on the general branch the pair of a default hash value and a
default-initialised `(hash, flag)` array of length `height + 1`, on the
`N = 1` branch the bare default array — and `verify_proof` rejects the
sentinel whenever the oracle never outputs the default ("no hash collision"
with the null value). -/
theorem c6_absent_sentinel (hash : List Nat → α) (hb : α → List Nat)
    (d : List (List Nat)) (x : List Nat) (h2 : 2 ≤ d.length)
    (hnm : ∀ i, i < d.length → (build hash hb d).getD i default ≠ leaf_hash hash x) :
    get_proof hash hb d x
      = (default, List.replicate (height d.length + 1) ((default : α), false))
    ∧ ((∀ b : List Nat, hash b ≠ (default : α)) →
        verify_proof hash hb x (get_proof hash hb d x).2 = false)
    ∧ (∀ (y d0 : List Nat), node_hashP hash y ≠ node_hashP hash d0 →
        get_proof_one hash d0 y = [((default : α), false)]
        ∧ ((∀ b : List Nat, hash b ≠ (default : α)) →
            verify_proof hash hb y (get_proof_one hash d0 y) = false)) := by
  have hfl : find_leaf (build hash hb d) d.length (leaf_hash hash x) = 2 ^ 64 - 1 := by
    rcases find_leaf_spec (build hash hb d) d.length (leaf_hash hash x) with
      ⟨hs, _⟩ | ⟨hhi, hmatch, _⟩
    · exact hs
    · exact absurd hmatch (hnm _ hhi)
  have hgp : get_proof hash hb d x
      = (default, List.replicate (height d.length + 1) ((default : α), false)) := by
    unfold get_proof
    rw [if_pos hfl]
  have hsingle : ∀ y : List Nat, (∀ b : List Nat, hash b ≠ (default : α)) →
      verify_proof hash hb y [((default : α), false)] = false := by
    intro y hne
    unfold verify_proof
    rw [List.length_singleton, Nat.sub_self, List.take_zero, List.foldl_nil,
      List.getD_cons_zero]
    rw [decide_eq_false_iff_not]
    exact hne _
  have hreject : ∀ k, (∀ b : List Nat, hash b ≠ (default : α)) →
      verify_proof hash hb x (List.replicate (k + 1) ((default : α), false)) = false := by
    intro k hne
    unfold verify_proof
    rw [List.length_replicate, Nat.add_sub_cancel, List.take_replicate,
      min_eq_left (by omega), List.getD_eq_getElem?_getD,
      List.getElem?_eq_getElem (by rw [List.length_replicate]; omega),
      List.getElem_replicate, Option.getD_some]
    obtain ⟨b, hB⟩ := foldl_replicate_hash hash hb x k
    rw [hB, decide_eq_false_iff_not]
    exact hne b
  refine ⟨hgp, ?_, ?_⟩
  · intro hne
    rw [hgp]
    exact hreject (height d.length) hne
  · intro y d0 hyd
    have hone : get_proof_one hash d0 y = [((default : α), false)] := by
      unfold get_proof_one
      rw [if_neg hyd]
    exact ⟨hone, fun hne => by rw [hone]; exact hsingle y hne⟩

/-- C7: a tree declared with one leaf and built from the single item stores
exactly the node-salted hash of the raw item as its root — `root() =
node_hash(item)`, with `leaf_hash` never applied: for an oracle injective
on the salt prefix the root differs from `leaf_hash(item)`. -/
theorem c7_single_item_root (hash : List Nat → α) (hb : α → List Nat) (one : List Nat) :
    build hash hb [one] = [node_hashP hash one]
    ∧ root hash hb [one] = node_hashP hash one
    ∧ ((∀ b1 b2, hash b1 = hash b2 → b1.take 4 = b2.take 4) →
        root hash hb [one] ≠ leaf_hash hash one) := by
  refine ⟨rfl, rfl, ?_⟩
  intro hpre hcontra
  have hcontra' : node_hashP hash one = leaf_hash hash one := hcontra
  unfold leaf_hash node_hashP at hcontra'
  have hpref := hpre _ _ hcontra'
  rw [concatU_pair, concatU_pair] at hpref
  simp [intBytes, leaf_salt, node_salt] at hpref

/-- C8 (amended to `2 ≤ N < 2^32`): `get_layer` addresses the flattened
storage — the leaf layer (index `height`) starts at position 0 with the
evened leaf count as its length, the root layer (index 0) is the single
slot at `size() - 1`, consecutive layer indices return consecutive,
non-overlapping segments (moving from the leaves toward the root), and
layer `height - i` is exactly the segment of level `i`: offset `loff N i`
(the accumulated evened lengths of the levels below) and evened level
length. -/
theorem c8_layer_addressing (N : Nat) (h2 : 2 ≤ N) (h32 : N < 2 ^ 32) :
    get_layer N (height N) = (0, round_to_even N)
    ∧ get_layer N 0 = (calc_tree_size N - 1, 1)
    ∧ (∀ idx, idx < height N →
        (get_layer N (idx + 1)).1 + (get_layer N (idx + 1)).2 = (get_layer N idx).1)
    ∧ (∀ i, i < height N →
        get_layer N (height N - i) = (loff N i, round_to_even (lsize N i))) := by
  have hc : height N = Nat.clog 2 N := height_eq_clog (by omega) h32
  have hcpos : 0 < Nat.clog 2 N := Nat.clog_pos (by omega) h2
  refine ⟨?_, ?_, ?_, ?_⟩
  · have h0 := get_layer_eq (n := N) (by omega) h32 0 (by omega)
    rw [Nat.sub_zero] at h0
    rw [hc, h0, if_neg (by omega),
      show lsize N 0 = N from rfl, show loff N 0 = 0 from rfl, Nat.sub_zero]
  · have htop := get_layer_eq (n := N) (by omega) h32 (Nat.clog 2 N) (le_refl _)
    rw [Nat.sub_self] at htop
    rw [htop, if_pos rfl, loff_top N (by omega), (lsize_chain N (by omega)).1]
    norm_num [round_to_even]
  · intro idx hidx
    rw [hc] at hidx
    have h1l := get_layer_eq (n := N) (by omega) h32 (Nat.clog 2 N - idx - 1) (by omega)
    have h0l := get_layer_eq (n := N) (by omega) h32 (Nat.clog 2 N - idx) (by omega)
    rw [show Nat.clog 2 N - (Nat.clog 2 N - idx - 1) = idx + 1 from by omega] at h1l
    rw [show Nat.clog 2 N - (Nat.clog 2 N - idx) = idx from by omega] at h0l
    rw [h1l, h0l]
    dsimp only
    rw [if_neg (by omega), Nat.sub_zero]
    set i1 := Nat.clog 2 N - idx - 1 with hi1
    rw [show Nat.clog 2 N - idx = i1 + 1 from by omega,
      show loff N (i1 + 1) = loff N i1 + round_to_even (lsize N i1) from rfl]
  · intro i hi
    rw [hc] at hi ⊢
    rw [get_layer_eq (n := N) (by omega) h32 i (by omega), if_neg (by omega), Nat.sub_zero]

/-- C8 counterexample: as stated over every built tree the claim fails —
at `N = 2^32` the 32-bit popcount slip makes `height` one too large, so
`get_layer(0)` walks one level past the storage and does not return the
root position `size() - 1`; and at `N = 1` the layer reported for index
`height(N) = 0` has length 1, not the evened leaf count 2. -/
theorem c8_counterexample :
    (get_layer (2 ^ 32) 0).1 ≠ calc_tree_size (2 ^ 32) - 1
    ∧ (get_layer 1 (height 1)).2 ≠ round_to_even 1 := by
  constructor
  · decide
  · decide

/-- C8 witness: the five-leaf tree of the test suite. -/
theorem c8_layer_addressing_witness :
    get_layer 5 (height 5) = (0, round_to_even 5)
    ∧ get_layer 5 0 = (calc_tree_size 5 - 1, 1)
    ∧ (∀ idx, idx < height 5 →
        (get_layer 5 (idx + 1)).1 + (get_layer 5 (idx + 1)).2 = (get_layer 5 idx).1)
    ∧ (∀ i, i < height 5 →
        get_layer 5 (height 5 - i) = (loff 5 i, round_to_even (lsize 5 i))) :=
  c8_layer_addressing 5 (by decide) (by decide)

/-- C9 (amended to `N ≥ 2`): on a tree built from at least two items,
`verify` returns true for every item of the building collection, and — for
an injective oracle ("no hash collision") — false for data never included;
both through the sentinel comparison, without raising. -/
theorem c9_verify_amended (hash : List Nat → α) (hb : α → List Nat)
    (d : List (List Nat)) (x : List Nat)
    (h2 : 2 ≤ d.length) (h64 : d.length < 2 ^ 64) :
    (x ∈ d → verify hash hb d x = true)
    ∧ ((∀ b1 b2, hash b1 = hash b2 → b1 = b2) → ¬ x ∈ d →
        verify hash hb d x = false) :=
  ⟨verify_mem hash hb d x h2 h64,
   fun hinj hx => verify_not_mem hash hb d x h2 hinj hx⟩

/-- C9 counterexample: at `N = 1` the single stored slot holds the
node-salted hash of the item (`build` bypasses `leaf_hash`), so `verify`
returns false even for the item the tree was built from — here the item
"one" with a concrete injective oracle. -/
theorem c9_counterexample :
    verify hashI hbI [[111, 110, 101]] [111, 110, 101] = false := by
  decide

/-- C9 witness: a two-item tree under the concrete oracle. -/
theorem c9_verify_amended_witness :
    ([2] ∈ [[1], [2]] → verify hashI hbI [[1], [2]] [2] = true)
    ∧ ((∀ b1 b2, hashI b1 = hashI b2 → b1 = b2) → ¬ [2] ∈ [[1], [2]] →
        verify hashI hbI [[1], [2]] [2] = false) :=
  c9_verify_amended hashI hbI [[1], [2]] [2] (by decide) (by decide)

/-- C10: `find_leaf` depends only on the first `N` stored slots (buffers
agreeing there scan identically), returns either the `(size_t)-1` sentinel
or the smallest index below `N` whose stored hash equals the target leaf
hash, reports the sentinel exactly when no slot below `N` matches, and (as
long as `N` is below the sentinel) never returns the synthetic duplicate
slot at index `N`. -/
theorem c10_find_leaf_first_n (md md' : List α) (n : Nat) (t : α)
    (h64 : n ≤ 2 ^ 64 - 1)
    (hagree : ∀ j, j < n → md.getD j default = md'.getD j default) :
    find_leaf md n t = find_leaf md' n t
    ∧ (find_leaf md n t = 2 ^ 64 - 1 ∨
        (find_leaf md n t < n ∧ md.getD (find_leaf md n t) default = t
          ∧ ∀ j, j < find_leaf md n t → md.getD j default ≠ t))
    ∧ (find_leaf md n t = 2 ^ 64 - 1 → ∀ j, j < n → md.getD j default ≠ t)
    ∧ (n < 2 ^ 64 - 1 → find_leaf md n t ≠ n) := by
  refine ⟨?_, ?_, ?_, ?_⟩
  · unfold find_leaf
    exact scanFrom_congr md md' t n 0 (fun j hj1 hj2 => hagree j (by omega))
  · rcases find_leaf_spec md n t with ⟨hs, _⟩ | h
    · exact Or.inl hs
    · exact Or.inr h
  · intro hs j hj
    rcases find_leaf_spec md n t with ⟨_, hnone⟩ | ⟨hhi, _, _⟩
    · exact hnone j hj
    · omega
  · intro hlt
    rcases find_leaf_spec md n t with ⟨hs, _⟩ | ⟨hhi, _, _⟩
    · omega
    · omega

/-- C10 witness: two buffers agreeing on the scanned slot. -/
theorem c10_find_leaf_first_n_witness :
    find_leaf [3, 7] 1 (3 : Nat) = find_leaf [3, 9] 1 3
    ∧ (find_leaf [3, 7] 1 (3 : Nat) = 2 ^ 64 - 1 ∨
        (find_leaf [3, 7] 1 (3 : Nat) < 1 ∧ [3, 7].getD (find_leaf [3, 7] 1 (3 : Nat)) default = 3
          ∧ ∀ j, j < find_leaf [3, 7] 1 (3 : Nat) → [3, 7].getD j default ≠ 3))
    ∧ (find_leaf [3, 7] 1 (3 : Nat) = 2 ^ 64 - 1 → ∀ j, j < 1 → [3, 7].getD j default ≠ 3)
    ∧ (1 < 2 ^ 64 - 1 → find_leaf [3, 7] 1 (3 : Nat) ≠ 1) :=
  c10_find_leaf_first_n [3, 7] [3, 9] 1 3 (by decide) (by decide)

/-- C1 counterexample: the claim fails at `N = 1` — on the tree built from
the single item "one" (bytes of `o`, `n`, `e`), the proof returned by
`get_proof` (the `LEAFS_N == 1` branch, which returns the bare proof
array) is rejected by `verify_proof`, because the stored root is the
node-salted hash of the item while verification starts from its leaf-salted
hash. -/
theorem c1_counterexample :
    verify_proof hashI hbI [111, 110, 101]
      (get_proof_one hashI [111, 110, 101] [111, 110, 101]) = false := by
  decide

/-- C1 witness: a three-item tree (odd count, so the duplication path is
exercised) under the concrete oracle. -/
theorem c1_roundtrip_amended_witness :
    verify_proof hashI hbI [1] (get_proof hashI hbI [[1], [2], [3]] [1]).2 = true :=
  c1_roundtrip_amended hashI hbI [[1], [2], [3]] [1] (by decide) (by decide) (by decide)

/-- C6 witness: a two-item tree and absent data under the concrete oracle
(the hypotheses are discharged by evaluation; `hashI` is never 0, so the
no-collision premise of the inner implications is satisfiable here). -/
theorem c6_absent_sentinel_witness :
    get_proof hashI hbI [[1], [2]] [3]
      = (default, List.replicate (height 2 + 1) ((default : Nat), false))
    ∧ ((∀ b : List Nat, hashI b ≠ (default : Nat)) →
        verify_proof hashI hbI [3] (get_proof hashI hbI [[1], [2]] [3]).2 = false)
    ∧ (∀ (y d0 : List Nat), node_hashP hashI y ≠ node_hashP hashI d0 →
        get_proof_one hashI d0 y = [((default : Nat), false)]
        ∧ ((∀ b : List Nat, hashI b ≠ (default : Nat)) →
            verify_proof hashI hbI y (get_proof_one hashI d0 y) = false)) :=
  c6_absent_sentinel hashI hbI [[1], [2]] [3] (by decide) (by decide)

end merkle
